import Mathlib

/-!
A shallow embedding of the parallel non-conforming mesh core declared in
`mesh/pncmesh.hpp` (class `ParNCMesh`, its nested message types, the
`VarMessage` transport envelope, and the `IndexRank` / `FaceId` comparators),
together with proofs about the ownership computation, the `ElementSet`
refinement-subtree codec, and the `NeighborDofMessage` dictionary codec.

Only the header is available among the sources; function bodies that live in
the corresponding translation unit (the ownership computation, the
`ElementSet` encoder, the `NeighborDofMessage` serializer) are modelled from
the specification, and each such definition is marked `Modelled from the
spec:` in its doc comment.  Everything defined directly by the header (the
comparators, the dispatch helpers, the accessor bodies, the message tags,
and `VarMessage::Recv`) is translated from the source text.
-/

/-! ## IndexRank and the ownership computation -/

/-- `ParNCMesh::IndexRank` (pncmesh.hpp): a pair used when sorting the
per-entity rank lists.  C++ `int` fields are embedded as `Int`. -/
structure IndexRank where
  index : Int
  rank : Int
deriving DecidableEq, Repr

/-- `IndexRank::operator<` from the source: `return index < other.index;`.
Note that it compares the entity index only and never looks at `rank`. -/
def IndexRank.lt (a b : IndexRank) : Bool :=
  decide (a.index < b.index)

/-- Modelled from the spec: the sorting step applied to the collected
`IndexRank` pairs (`tmp_edge_ranks` / `tmp_face_ranks`).  The sort routine
itself is external to the header (`Array::Sort`); it is modelled as a
comparison sort - insertion sort - that consults only the source comparator
`IndexRank.lt`. -/
def insertIR (a : IndexRank) : List IndexRank → List IndexRank
  | [] => [a]
  | b :: l => if IndexRank.lt a b then a :: b :: l else b :: insertIR a l

/-- Insertion sort of `IndexRank` pairs by `IndexRank.lt` (see `insertIR`). -/
def sortIR : List IndexRank → List IndexRank
  | [] => []
  | a :: l => insertIR a (sortIR l)

/-- Modelled from the spec: the multiset of ranks reported as touching
entity `e`, read off the collected `IndexRank` pairs. -/
def ranksOf (pairs : List IndexRank) (e : Int) : List Int :=
  (pairs.filter (fun q => decide (q.index = e))).map IndexRank.rank

/-- One step of a running minimum over `Option Int`. -/
def minStep (acc : Option Int) (r : Int) : Option Int :=
  match acc with
  | none => some r
  | some m => some (min m r)

/-- Modelled from the spec: `Owner[e]` - "owner = lowest rank number among
the group"; `none` when no rank reports the entity.  The implementation
that fills `edge_owner` / `face_owner` is not among the sources; only the
table declarations are. -/
def ownerOf (pairs : List IndexRank) (e : Int) : Option Int :=
  (ranksOf pairs e).foldl minStep none

/-- Sorted-insert of a rank into a duplicate-free ascending list. -/
def insertSortedInt (x : Int) : List Int → List Int
  | [] => [x]
  | y :: l =>
    if x < y then x :: y :: l
    else if x = y then y :: l
    else y :: insertSortedInt x l

/-- Modelled from the spec: `Group[e]` - "all ranks present regardless of
order", kept as an ascending duplicate-free list (the rows of the
`edge_ranks` / `face_ranks` tables). -/
def groupOf (pairs : List IndexRank) (e : Int) : List Int :=
  (ranksOf pairs e).foldr insertSortedInt []

/-! ## ParNCMesh owner/group accessors and their bodies -/

/-- A statement of a C++ function body, at the granularity the accessor
bodies in the header need: an expression statement (the expression is
evaluated and its value discarded) or a return statement. -/
inductive CStmt where
  | exprStmt : Int → CStmt
  | retStmt : Int → CStmt
deriving DecidableEq, Repr

/-- Run a function body: the first return statement yields the function's
value; falling off the end of the body yields no value (in C++, undefined
behaviour for a non-void function). -/
def runBody : List CStmt → Option Int
  | [] => none
  | CStmt.exprStmt _ :: rest => runBody rest
  | CStmt.retStmt v :: _ => some v

/-- The `ParNCMesh` state the claims touch: the `edge_owner` / `face_owner`
owner tables (`Array<int>`) and the `edge_ranks` / `face_ranks` group
tables (`Table`, one row of ranks per entity). -/
structure ParNCMesh where
  edge_owner : List Int
  face_owner : List Int
  edge_ranks : List (List Int)
  face_ranks : List (List Int)
deriving DecidableEq, Repr

/-- `ParNCMesh::EdgeOwner` exactly as written in the header:
`{ edge_owner[index]; }` - the table entry is read as a bare expression
statement and there is no return statement. -/
def ParNCMesh.EdgeOwner (m : ParNCMesh) (index : Nat) : Option Int :=
  runBody [CStmt.exprStmt (m.edge_owner.getD index 0)]

/-- `ParNCMesh::FaceOwner` exactly as written in the header:
`{ face_owner[index]; }` - same missing return statement. -/
def ParNCMesh.FaceOwner (m : ParNCMesh) (index : Nat) : Option Int :=
  runBody [CStmt.exprStmt (m.face_owner.getD index 0)]

/-- `ParNCMesh::EdgeGroup`: returns the row of `edge_ranks` for the entity
together with its size; embedded as the row itself (pointer plus size as a
list). -/
def ParNCMesh.EdgeGroup (m : ParNCMesh) (index : Nat) : List Int :=
  m.edge_ranks.getD index []

/-- `ParNCMesh::FaceGroup`: the row of `face_ranks` for the entity. -/
def ParNCMesh.FaceGroup (m : ParNCMesh) (index : Nat) : List Int :=
  m.face_ranks.getD index []

/-- `ParNCMesh::GetOwner`: `return type ? FaceOwner(index) : EdgeOwner(index);`
with C++ truthiness of the `int` discriminant. -/
def ParNCMesh.GetOwner (m : ParNCMesh) (ty : Int) (index : Nat) : Option Int :=
  if ty ≠ 0 then m.FaceOwner index else m.EdgeOwner index

/-- `ParNCMesh::GetGroup`:
`return type ? FaceGroup(index, size) : EdgeGroup(index, size);`. -/
def ParNCMesh.GetGroup (m : ParNCMesh) (ty : Int) (index : Nat) : List Int :=
  if ty ≠ 0 then m.FaceGroup index else m.EdgeGroup index

/-! ## FaceId keys and the NeighborDofMessage dictionaries -/

/-- `NCMesh::FaceId` (declared in ncmesh.hpp, outside these sources),
modelled from the spec's data model: a rank-local entity identifier whose
`index` field is the rank-local entity number, with further fields (the
adjacent element and the local face number within it) describing the
entity.  `EdgeId` has the same shape; the header's `IdToDofs` dictionaries
key both kinds by this type. -/
structure FaceId where
  index : Int
  element : Int
  locNum : Int
deriving DecidableEq, Repr

/-- The free `operator< (const NCMesh::FaceId&, const NCMesh::FaceId&)`
from the header: `return a.index < b.index;` - it compares the rank-local
index field only. -/
def faceIdLess (a b : FaceId) : Bool :=
  decide (a.index < b.index)

/-- `std::map` key equivalence induced by `faceIdLess`: two keys are the
same map entry iff neither is less than the other. -/
def keyEquiv (a b : FaceId) : Bool :=
  !faceIdLess a b && !faceIdLess b a

/-- The `IdToDofs` dictionary (`std::map<FaceId, std::vector<int> >`),
as an association list; lookup and assignment follow the `std::map`
comparator semantics (equivalence by `keyEquiv`).  Entry order abstracts
the map's internal order; it is irrelevant to every claim below. -/
def mapFind (m : List (FaceId × List Int)) (k : FaceId) : Option (List Int) :=
  match m with
  | [] => none
  | (k', v) :: rest => if keyEquiv k k' then some v else mapFind rest k

/-- `std::map` assignment `m[k] = v`: replace the equivalent key's value,
or add a new entry. -/
def mapInsert (m : List (FaceId × List Int)) (k : FaceId) (v : List Int) :
    List (FaceId × List Int) :=
  match m with
  | [] => [(k, v)]
  | (k', v') :: rest =>
    if keyEquiv k k' then (k, v) :: rest else (k', v') :: mapInsert rest k v

/-- `ParNCMesh::NeighborDofMessage`: the two `IdToDofs` dictionaries
(`face_dofs`, `edge_dofs`) it carries. -/
structure NeighborDofMessage where
  face_dofs : List (FaceId × List Int)
  edge_dofs : List (FaceId × List Int)
deriving DecidableEq, Repr

/-- Modelled from the spec: `AddFaceDofs` appends/overwrites the entry for
the given id in the outgoing face dictionary (body not in the header). -/
def NeighborDofMessage.AddFaceDofs (msg : NeighborDofMessage) (fid : FaceId)
    (dofs : List Int) : NeighborDofMessage :=
  { msg with face_dofs := mapInsert msg.face_dofs fid dofs }

/-- Modelled from the spec: `AddEdgeDofs` for the edge dictionary. -/
def NeighborDofMessage.AddEdgeDofs (msg : NeighborDofMessage) (eid : FaceId)
    (dofs : List Int) : NeighborDofMessage :=
  { msg with edge_dofs := mapInsert msg.edge_dofs eid dofs }

/-- Modelled from the spec: `GetFaceDofs` reads the entry for the given id
from the face dictionary on the receiving side. -/
def NeighborDofMessage.GetFaceDofs (msg : NeighborDofMessage) (fid : FaceId) :
    Option (List Int) :=
  mapFind msg.face_dofs fid

/-- Modelled from the spec: `GetEdgeDofs` for the edge dictionary. -/
def NeighborDofMessage.GetEdgeDofs (msg : NeighborDofMessage) (eid : FaceId) :
    Option (List Int) :=
  mapFind msg.edge_dofs eid

/-- `NeighborDofMessage::AddDofs` exactly as in the header:
`if (type) AddFaceDofs(fid, dofs); else AddEdgeDofs(fid, dofs);`. -/
def NeighborDofMessage.AddDofs (msg : NeighborDofMessage) (ty : Int)
    (fid : FaceId) (dofs : List Int) : NeighborDofMessage :=
  if ty ≠ 0 then msg.AddFaceDofs fid dofs else msg.AddEdgeDofs fid dofs

/-- `NeighborDofMessage::GetDofs` exactly as in the header:
`if (type) GetFaceDofs(fid, dofs); else GetEdgeDofs(fid, dofs);`. -/
def NeighborDofMessage.GetDofs (msg : NeighborDofMessage) (ty : Int)
    (fid : FaceId) : Option (List Int) :=
  if ty ≠ 0 then msg.GetFaceDofs fid else msg.GetEdgeDofs fid

/-! ## NeighborDofMessage wire format (Isend/Recv payload) -/

/-- Modelled from the spec: one dictionary key on the wire - the fields of
the `EntityId`. -/
def encodeId (k : FaceId) : List Int :=
  [k.index, k.element, k.locNum]

/-- Modelled from the spec: the flattened `(EntityId, count, dof[count])*`
sequence for one dictionary. -/
def encodeEntries : List (FaceId × List Int) → List Int
  | [] => []
  | (k, v) :: rest => encodeId k ++ (v.length : Int) :: v ++ encodeEntries rest

/-- Modelled from the spec: one dictionary on the wire - its entry count
followed by its flattened entries. -/
def encodeDict (m : List (FaceId × List Int)) : List Int :=
  (m.length : Int) :: encodeEntries m

/-- Modelled from the spec: the opaque `Isend` payload of a
`NeighborDofMessage` - the edge dictionary followed by the face
dictionary. -/
def NeighborDofMessage.encode (msg : NeighborDofMessage) : List Int :=
  encodeDict msg.edge_dofs ++ encodeDict msg.face_dofs

/-- Modelled from the spec: decode `n` flattened dictionary entries,
returning the entries and the remaining payload; fails fast on a malformed
payload. -/
def decodeEntries : Nat → List Int → Option (List (FaceId × List Int) × List Int)
  | 0, bs => some ([], bs)
  | n + 1, i :: e :: l :: c :: bs =>
    if h : 0 ≤ c ∧ c.toNat ≤ bs.length then
      match decodeEntries n (bs.drop c.toNat) with
      | none => none
      | some (m, rest) => some ((⟨i, e, l⟩, bs.take c.toNat) :: m, rest)
    else none
  | _ + 1, _ => none

/-- Modelled from the spec: decode one dictionary (count, then entries). -/
def decodeDict (bs : List Int) : Option (List (FaceId × List Int) × List Int) :=
  match bs with
  | [] => none
  | n :: rest => if 0 ≤ n then decodeEntries n.toNat rest else none

/-- Modelled from the spec: the receiving side of `NeighborDofMessage::Recv`
- rebuild both dictionaries from the payload; a leftover tail is a
protocol error. -/
def NeighborDofMessage.decode (bs : List Int) : Option NeighborDofMessage :=
  match decodeDict bs with
  | none => none
  | some (ed, rest) =>
    match decodeDict rest with
    | none => none
    | some (fd, rest') =>
      if rest' = [] then some ⟨fd, ed⟩ else none

/-- One `AddFaceDofs` / `AddEdgeDofs` call. -/
inductive DofOp where
  | face : FaceId → List Int → DofOp
  | edge : FaceId → List Int → DofOp
deriving DecidableEq, Repr

/-- Apply one call to a message being populated. -/
def applyOp (msg : NeighborDofMessage) : DofOp → NeighborDofMessage
  | DofOp.face fid dofs => msg.AddFaceDofs fid dofs
  | DofOp.edge eid dofs => msg.AddEdgeDofs eid dofs

/-- Populate a message by a sequence of `AddFaceDofs` / `AddEdgeDofs`
calls, starting from the freshly constructed (empty) message. -/
def applyOps (ops : List DofOp) : NeighborDofMessage :=
  ops.foldl applyOp ⟨[], []⟩

/-! ## VarMessage transport: tags, probe, receive -/

/-- The channel tag of `NeighborDofMessage` from the header:
`class NeighborDofMessage : public VarMessage<135>`. -/
def neighborDofTag : Int := 135

/-- The channel tag of `NeighborRowMessage` from the header:
`class NeighborRowMessage : public VarMessage<312>`. -/
def neighborRowTag : Int := 312

/-- A pending point-to-point message in the transport layer: source rank,
channel tag, and payload bytes. -/
structure MpiMsg where
  source : Int
  tag : Int
  payload : List Int
deriving DecidableEq, Repr

/-- Modelled from the spec: `MPI_Probe(MPI_ANY_SOURCE, Tag, ...)` as used
by `VarMessage::Probe` - surface the first pending message whose tag
matches, without consuming it. -/
def probeTag (t : Int) (net : List MpiMsg) : Option MpiMsg :=
  net.find? (fun m => decide (m.tag = t))

/-- Modelled from the spec: the matching step of `MPI_Recv(buf, size,
MPI_BYTE, rank, Tag, ...)` - consume the first pending message with the
given source rank and tag, returning it and the remaining pending
messages. -/
def recvMatch (src t : Int) : List MpiMsg → Option (MpiMsg × List MpiMsg)
  | [] => none
  | m :: rest =>
    if m.source = src ∧ m.tag = t then some (m, rest)
    else
      match recvMatch src t rest with
      | none => none
      | some (m', rest') => some (m', m :: rest')

/-- `std::string::resize(size)` on the message buffer: truncate or
zero-extend to exactly `size` entries. -/
def stringResize (s : List Int) (n : Nat) : List Int :=
  s.take n ++ List.replicate (n - s.length) 0

/-- `MPI_Recv` writing into the resized buffer: up to `count` received
entries overwrite the front of the buffer, the rest of the buffer is kept. -/
def recvInto (buf : List Int) (count : Nat) (m : MpiMsg) : List Int :=
  let recvd := m.payload.take count
  recvd ++ buf.drop recvd.length

/-- `VarMessage::Recv(rank, size, comm)` from the header:
`data.resize(size); MPI_Recv((void*) data.data(), size, MPI_BYTE, rank,
Tag, comm, &status);` - the buffer is resized to `size` and the matching
message's bytes are received into it; fails if no matching message is
pending. -/
def VarMessage.Recv (Tag : Int) (data : List Int) (src : Int) (size : Nat)
    (net : List MpiMsg) : Option (List Int × List MpiMsg) :=
  match recvMatch src Tag net with
  | none => none
  | some (m, rest) => some (recvInto (stringResize data size) size m, rest)

/-! ## ElementSet: the refinement-subtree codec -/

mutual
/-- Modelled from the spec: a node of the refinement hierarchy (the NCMesh
`Element` tree lives outside these sources); it carries its ordered list
of children (empty for an unrefined element). -/
inductive Elem : Type where
  | node : ElemList → Elem

/-- The ordered children of a refined element. -/
inductive ElemList : Type where
  | nil : ElemList
  | cons : Elem → ElemList → ElemList
end

/-- A tree node is addressed relative to the fixed root array by its path:
the root's position followed by the child positions taken to reach it.
Paths are the rank-independent node identities the decoder reconstructs
"by navigating child links from the roots". -/
abbrev ElemPath : Type := List Nat

/-- `properAnc p q = true` iff `p` addresses a proper ancestor of `q`
(i.e. `q` extends `p` by at least one step). -/
def properAnc : ElemPath → ElemPath → Bool
  | [], [] => false
  | [], _ :: _ => true
  | _ :: _, [] => false
  | a :: p, b :: q => decide (a = b) && properAnc p q

mutual
/-- All node paths of the subtree rooted at path `p`. -/
def nodesFrom (p : ElemPath) : Elem → List ElemPath
  | Elem.node cs => p :: nodesFromList p 0 cs

/-- All node paths of the subtrees of a child list, the first child at
position `i` under path `p`. -/
def nodesFromList (p : ElemPath) (i : Nat) : ElemList → List ElemPath
  | ElemList.nil => []
  | ElemList.cons c cs => nodesFrom (p ++ [i]) c ++ nodesFromList p (i + 1) cs
end

mutual
/-- Whether the subtree at path `p` contains a node of `S` (the node
itself included). -/
def hasHit (S : List ElemPath) (p : ElemPath) : Elem → Bool
  | Elem.node cs => decide (p ∈ S) || hasHitList S p 0 cs

/-- Whether any subtree of the child list contains a node of `S`. -/
def hasHitList (S : List ElemPath) (p : ElemPath) (i : Nat) : ElemList → Bool
  | ElemList.nil => false
  | ElemList.cons c cs => hasHit S (p ++ [i]) c || hasHitList S p (i + 1) cs
end

mutual
/-- Modelled from the spec: `ElementSet::EncodeTree` - the pre-order walk
emitting one control byte per visited node: `1` when the node is in the
subset (stop descending), `2` when the node is not in the subset but some
descendant is (continue into the children), `0` when the node and its
whole subtree are excluded (stop). -/
def encodeTree (S : List ElemPath) (p : ElemPath) : Elem → List Nat
  | Elem.node cs =>
    if p ∈ S then [1]
    else if hasHitList S p 0 cs then 2 :: encodeList S p 0 cs
    else [0]

/-- Encode the children of a descended-into node, in order. -/
def encodeList (S : List ElemPath) (p : ElemPath) (i : Nat) :
    ElemList → List Nat
  | ElemList.nil => []
  | ElemList.cons c cs =>
    encodeTree S (p ++ [i]) c ++ encodeList S p (i + 1) cs
end

mutual
/-- Modelled from the spec: `ElementSet::DecodeTree` - consume the control
bytes in the same pre-order against the receiver's tree, reconstructing
the node paths; fails fast on a malformed stream. -/
def decodeTree (p : ElemPath) : Elem → List Nat → Option (List ElemPath × List Nat)
  | Elem.node _, [] => none
  | Elem.node cs, b :: bs =>
    if b = 1 then some ([p], bs)
    else if b = 2 then decodeList p 0 cs bs
    else if b = 0 then some ([], bs)
    else none

/-- Decode the children of a descended-into node, in order. -/
def decodeList (p : ElemPath) (i : Nat) :
    ElemList → List Nat → Option (List ElemPath × List Nat)
  | ElemList.nil, bs => some ([], bs)
  | ElemList.cons c cs, bs =>
    match decodeTree (p ++ [i]) c bs with
    | none => none
    | some (ps, bs₁) =>
      match decodeList p (i + 1) cs bs₁ with
      | none => none
      | some (qs, bs₂) => some (ps ++ qs, bs₂)
end

mutual
/-- The subset the encoding actually captures: the topmost `S`-members of
the subtree at `p` (descent stops at a subset node, so `S`-members below
another `S`-member are not captured). -/
def pickTree (S : List ElemPath) (p : ElemPath) : Elem → List ElemPath
  | Elem.node cs =>
    if p ∈ S then [p]
    else if hasHitList S p 0 cs then pickList S p 0 cs
    else []

/-- `pickTree` over a child list. -/
def pickList (S : List ElemPath) (p : ElemPath) (i : Nat) :
    ElemList → List ElemPath
  | ElemList.nil => []
  | ElemList.cons c cs => pickTree S (p ++ [i]) c ++ pickList S p (i + 1) cs
end

/-- Modelled from the spec: `Encode(S, roots)` - each root encoded in
order (the virtual path of root `i` is `[i]`). -/
def encodeRoots (S : List ElemPath) (roots : ElemList) : List Nat :=
  encodeList S [] 0 roots

/-- Modelled from the spec: `Decode(bytes, roots)`. -/
def decodeRoots (roots : ElemList) (bs : List Nat) :
    Option (List ElemPath × List Nat) :=
  decodeList [] 0 roots bs

/-- All node paths reachable from the root array. -/
def rootsNodes (roots : ElemList) : List ElemPath :=
  nodesFromList [] 0 roots

/-- Round-trip property of one subtree: decoding what was encoded yields
the picked subset and leaves the remaining stream untouched. -/
def RTtree (t : Elem) : Prop :=
  ∀ (S : List ElemPath) (p : ElemPath) (rest : List Nat),
    decodeTree p t (encodeTree S p t ++ rest) = some (pickTree S p t, rest)

/-- Round-trip property of a child list. -/
def RTlist (cs : ElemList) : Prop :=
  ∀ (S : List ElemPath) (p : ElemPath) (i : Nat) (rest : List Nat),
    decodeList p i cs (encodeList S p i cs ++ rest) =
      some (pickList S p i cs, rest)

/-- Shape of the node-path list of a subtree: every member is the subtree's
own path or a proper descendant path. -/
def NStree (t : Elem) : Prop :=
  ∀ p q, q ∈ nodesFrom p t → p = q ∨ properAnc p q = true

/-- Shape of the node-path list of a child list. -/
def NSlist (cs : ElemList) : Prop :=
  ∀ p i q, q ∈ nodesFromList p i cs → properAnc p q = true

/-- A subset member inside a subtree makes the subtree a hit. -/
def HHtree (t : Elem) : Prop :=
  ∀ (S : List ElemPath) p q, q ∈ S → q ∈ nodesFrom p t → hasHit S p t = true

/-- A subset member inside a child list makes the list a hit. -/
def HHlist (cs : ElemList) : Prop :=
  ∀ (S : List ElemPath) p i q, q ∈ S → q ∈ nodesFromList p i cs →
    hasHitList S p i cs = true

/-- Soundness of the captured subset: everything picked is in `S`. -/
def PStree (t : Elem) : Prop :=
  ∀ (S : List ElemPath) p q, q ∈ pickTree S p t → q ∈ S

/-- Soundness over a child list. -/
def PSlist (cs : ElemList) : Prop :=
  ∀ (S : List ElemPath) p i q, q ∈ pickList S p i cs → q ∈ S

/-- Completeness of the captured subset for ancestor-free subsets. -/
def PCtree (t : Elem) : Prop :=
  ∀ (S : List ElemPath) p q, q ∈ S → (∀ r ∈ S, properAnc r q = false) →
    q ∈ nodesFrom p t → q ∈ pickTree S p t

/-- Completeness over a child list. -/
def PClist (cs : ElemList) : Prop :=
  ∀ (S : List ElemPath) p i q, q ∈ S → (∀ r ∈ S, properAnc r q = false) →
    q ∈ nodesFromList p i cs → q ∈ pickList S p i cs

/-- A root array with one root refined into two leaf children: node paths
`[0]`, `[0,0]`, `[0,1]`. -/
def elemTwoLeaves : ElemList :=
  ElemList.cons
    (Elem.node (ElemList.cons (Elem.node ElemList.nil)
      (ElemList.cons (Elem.node ElemList.nil) ElemList.nil)))
    ElemList.nil

/-- A root array with one root refined into a single child: node paths
`[0]` and `[0,0]`, a two-node ancestor chain. -/
def elemChain : ElemList :=
  ElemList.cons
    (Elem.node (ElemList.cons (Elem.node ElemList.nil) ElemList.nil))
    ElemList.nil

/-! ## Theorems -/

theorem mem_insertSortedInt (x y : Int) (l : List Int) :
    y ∈ insertSortedInt x l ↔ y = x ∨ y ∈ l := by
  induction l with
  | nil => simp [insertSortedInt]
  | cons z l ih =>
    by_cases h1 : x < z
    · simp [insertSortedInt, h1]
    · by_cases h2 : x = z
      · subst h2
        simp only [insertSortedInt, if_neg h1, if_pos rfl, if_true,
          List.mem_cons, eq_self_iff_true]
        tauto
      · simp only [insertSortedInt, if_neg h1, if_neg h2, List.mem_cons, ih]
        tauto

theorem mem_groupOf_iff (pairs : List IndexRank) (e : Int) (r : Int) :
    r ∈ groupOf pairs e ↔ r ∈ ranksOf pairs e := by
  unfold groupOf
  induction ranksOf pairs e with
  | nil => simp
  | cons x l ih =>
    simp only [List.foldr_cons, mem_insertSortedInt, List.mem_cons, ih]

theorem foldl_minStep_some (l : List Int) (a : Int) :
    ∃ o, l.foldl minStep (some a) = some o ∧ o ∈ a :: l ∧
      o ≤ a ∧ ∀ r ∈ l, o ≤ r := by
  induction l generalizing a with
  | nil => exact ⟨a, rfl, by simp, le_refl a, by simp⟩
  | cons x l ih =>
    obtain ⟨o, ho, hmem, hle, hall⟩ := ih (min a x)
    have hstep : (x :: l).foldl minStep (some a) = some o := by
      simpa [minStep] using ho
    refine ⟨o, hstep, ?_, le_trans hle (min_le_left a x), ?_⟩
    · rcases List.mem_cons.mp hmem with h | h
      · rcases min_choice a x with hm | hm
        · simp [h, hm]
        · simp [h, hm]
      · simp [h]
    · intro r hr
      rcases List.mem_cons.mp hr with h | h
      · exact h ▸ le_trans hle (min_le_right a x)
      · exact hall r h

theorem ownerOf_spec (pairs : List IndexRank) (e : Int) (o : Int)
    (h : ownerOf pairs e = some o) :
    o ∈ ranksOf pairs e ∧ ∀ r ∈ ranksOf pairs e, o ≤ r := by
  unfold ownerOf at h
  cases hl : ranksOf pairs e with
  | nil => rw [hl] at h; simp at h
  | cons x l =>
    rw [hl] at h
    obtain ⟨o', ho', hmem, hle, hall⟩ := foldl_minStep_some l x
    simp only [List.foldl_cons, minStep] at h
    rw [ho'] at h
    cases h
    refine ⟨hmem, ?_⟩
    intro r hr
    rcases List.mem_cons.mp hr with h | h
    · exact h ▸ hle
    · exact hall r h

theorem foldl_minStep_perm (l₁ l₂ : List Int) (h : l₁.Perm l₂) :
    ∀ acc, l₁.foldl minStep acc = l₂.foldl minStep acc := by
  induction h with
  | nil => intro acc; rfl
  | cons x _ ih => intro acc; simp only [List.foldl_cons]; exact ih _
  | swap x y l =>
    intro acc
    simp only [List.foldl_cons]
    have : minStep (minStep acc y) x = minStep (minStep acc x) y := by
      cases acc <;> simp [minStep, min_assoc, min_comm x y]
    rw [this]
  | trans _ _ ih₁ ih₂ => intro acc; rw [ih₁, ih₂]

theorem ranksOf_perm (pairs pairs' : List IndexRank) (e : Int)
    (h : pairs.Perm pairs') : (ranksOf pairs e).Perm (ranksOf pairs' e) :=
  (h.filter _).map _

theorem ownerOf_perm (pairs pairs' : List IndexRank) (e : Int)
    (h : pairs.Perm pairs') : ownerOf pairs e = ownerOf pairs' e :=
  foldl_minStep_perm _ _ (ranksOf_perm pairs pairs' e h) none

/-- C1: for an entity shared by at least two ranks, the owner is the lowest
rank of its group, every rank computes the same owner from its own arrival
order of the collected pairs, and in the two-rank scenario with shared edge
index 7 reported by ranks 0 and 1, the owner is 0 and the group is `{0, 1}`. -/
theorem owner_is_min_rank (pairs pairs' : List IndexRank) (e : Int)
    (hperm : pairs.Perm pairs')
    (hshared : 2 ≤ (groupOf pairs e).length) :
    ownerOf pairs e = ownerOf pairs' e ∧
    (∀ r, r ∈ groupOf pairs e ↔ r ∈ groupOf pairs' e) ∧
    (∀ o, ownerOf pairs e = some o →
      o ∈ groupOf pairs e ∧ ∀ r ∈ groupOf pairs e, o ≤ r) ∧
    ownerOf [⟨7, 0⟩, ⟨7, 1⟩] 7 = some 0 ∧
    groupOf [⟨7, 0⟩, ⟨7, 1⟩] 7 = [0, 1] := by
  refine ⟨ownerOf_perm _ _ _ hperm, ?_, ?_, by decide, by decide⟩
  · intro r
    rw [mem_groupOf_iff, mem_groupOf_iff]
    exact ⟨fun h => (ranksOf_perm _ _ e hperm).mem_iff.mp h,
           fun h => (ranksOf_perm _ _ e hperm).mem_iff.mpr h⟩
  · intro o ho
    obtain ⟨hmem, hall⟩ := ownerOf_spec pairs e o ho
    exact ⟨(mem_groupOf_iff _ _ _).mpr hmem,
           fun r hr => hall r ((mem_groupOf_iff _ _ _).mp hr)⟩

/-- Witness for `owner_is_min_rank` at the concrete two-rank scenario. -/
theorem owner_is_min_rank_witness :
    ownerOf [⟨7, 1⟩, ⟨7, 0⟩] 7 = ownerOf [⟨7, 0⟩, ⟨7, 1⟩] 7 :=
  (owner_is_min_rank [⟨7, 1⟩, ⟨7, 0⟩] [⟨7, 0⟩, ⟨7, 1⟩] 7
    (by decide) (by decide)).1

theorem insertIR_perm (a : IndexRank) (l : List IndexRank) :
    (insertIR a l).Perm (a :: l) := by
  induction l with
  | nil => exact List.Perm.refl _
  | cons b l ih =>
    unfold insertIR
    by_cases h : IndexRank.lt a b
    · simp [h]
    · simp only [h, if_false, Bool.false_eq_true]
      exact (ih.cons b).trans (List.Perm.swap a b l)

theorem sortIR_perm (l : List IndexRank) : (sortIR l).Perm l := by
  induction l with
  | nil => exact List.Perm.refl _
  | cons a l ih => exact (insertIR_perm a (sortIR l)).trans (ih.cons a)

theorem insertIR_sorted (a : IndexRank) (l : List IndexRank)
    (h : l.Pairwise (fun x y => x.index ≤ y.index)) :
    (insertIR a l).Pairwise (fun x y => x.index ≤ y.index) := by
  induction l with
  | nil => simp [insertIR]
  | cons b l ih =>
    rcases List.pairwise_cons.mp h with ⟨hb, hl⟩
    unfold insertIR
    by_cases hab : IndexRank.lt a b
    · have hab' : a.index ≤ b.index :=
        le_of_lt (of_decide_eq_true hab)
      simp only [hab, if_true]
      refine List.pairwise_cons.mpr ⟨?_, h⟩
      intro c hc
      rcases List.mem_cons.mp hc with hcb | hcl
      · exact hcb ▸ hab'
      · exact le_trans hab' (hb c hcl)
    · have hba : b.index ≤ a.index := by
        have := of_decide_eq_false (Bool.of_not_eq_true hab)
        omega
      simp only [hab, if_false, Bool.false_eq_true]
      refine List.pairwise_cons.mpr ⟨?_, ih hl⟩
      intro c hc
      rcases List.mem_cons.mp ((insertIR_perm a l).mem_iff.mp hc) with hca | hcl
      · exact hca ▸ hba
      · exact hb c hcl

theorem sortIR_sorted (l : List IndexRank) :
    (sortIR l).Pairwise (fun x y => x.index ≤ y.index) := by
  induction l with
  | nil => simp [sortIR]
  | cons a l ih => exact insertIR_sorted a (sortIR l) ih

/-- C3 counterexample: the two arrival orders of the multiset
`{(7, 0), (7, 1)}` are permutations of each other, yet sorting them with
`IndexRank::operator<` yields different arrays, because the comparator
never looks at the rank and therefore cannot put equal-index pairs into
rank order. -/
theorem indexRank_sort_arrival_dependent :
    ([⟨7, 0⟩, ⟨7, 1⟩] : List IndexRank).Perm [⟨7, 1⟩, ⟨7, 0⟩] ∧
    sortIR [⟨7, 0⟩, ⟨7, 1⟩] = [⟨7, 1⟩, ⟨7, 0⟩] ∧
    sortIR [⟨7, 1⟩, ⟨7, 0⟩] = [⟨7, 0⟩, ⟨7, 1⟩] ∧
    sortIR [⟨7, 0⟩, ⟨7, 1⟩] ≠ sortIR [⟨7, 1⟩, ⟨7, 0⟩] ∧
    IndexRank.lt ⟨7, 0⟩ ⟨7, 1⟩ = false ∧
    IndexRank.lt ⟨7, 1⟩ ⟨7, 0⟩ = false := by
  refine ⟨by decide, by decide, by decide, by decide, by decide, by decide⟩

/-- C3 amended: sorting with `IndexRank::operator<` produces a permutation
of the input that is ascending in the entity index, and the comparator is
entirely independent of the rank fields, so only the index order - not the
relative order of equal-index pairs - is canonical; equal-index pairs stay
in arrival order rather than rank order. -/
theorem indexRank_sort_by_index_only (l : List IndexRank) :
    (sortIR l).Perm l ∧
    (sortIR l).Pairwise (fun x y => x.index ≤ y.index) ∧
    (∀ i j r r' : Int,
      IndexRank.lt ⟨i, r⟩ ⟨j, r'⟩ = decide (i < j)) := by
  exact ⟨sortIR_perm l, sortIR_sorted l, fun i j r r' => rfl⟩

/-- C2 (code bug): the accessor bodies `{ edge_owner[index]; }` and
`{ face_owner[index]; }` evaluate the owner-table entry and discard it;
lacking a return statement, they produce no value at all - while a body
`{ return edge_owner[index]; }` would produce exactly the table entry, as
the last conjunct shows.  This contradicts the accessors' own doc comments
("Return processor owning an edge/face"). -/
theorem edge_face_owner_returns_nothing (m : ParNCMesh) (i : Nat) :
    m.EdgeOwner i = none ∧
    m.FaceOwner i = none ∧
    m.EdgeOwner i ≠ some (m.edge_owner.getD i 0) ∧
    runBody [CStmt.retStmt (m.edge_owner.getD i 0)] =
      some (m.edge_owner.getD i 0) := by
  exact ⟨rfl, rfl, fun h => Option.noConfusion h, rfl⟩

theorem mapFind_mapInsert_self (m : List (FaceId × List Int)) (k k' : FaceId)
    (v : List Int) (h : keyEquiv k' k = true) :
    mapFind (mapInsert m k v) k' = some v := by
  induction m with
  | nil => simp [mapInsert, mapFind, h]
  | cons e rest ih =>
    obtain ⟨ke, ve⟩ := e
    by_cases hk : keyEquiv k ke
    · have hk' : keyEquiv k' ke = true := by
        unfold keyEquiv faceIdLess at *
        simp only [Bool.and_eq_true, Bool.not_eq_true', decide_eq_false_iff_not] at *
        omega
      simp [mapInsert, mapFind, hk, hk', h]
    · have hk' : keyEquiv k' ke = false := by
        unfold keyEquiv faceIdLess at *
        simp only [Bool.and_eq_true, Bool.not_eq_true', decide_eq_false_iff_not,
          Bool.and_eq_false_iff, Bool.not_eq_false', decide_eq_true_eq] at *
        omega
      simp [mapInsert, mapFind, hk, hk', ih]

theorem keyEquiv_refl (k : FaceId) : keyEquiv k k = true := by
  simp [keyEquiv, faceIdLess]

theorem keyEquiv_eq_decide (a b : FaceId) :
    keyEquiv a b = decide (a.index = b.index) := by
  unfold keyEquiv faceIdLess
  by_cases h : a.index = b.index
  · simp [h]
  · by_cases hlt : a.index < b.index
    · simp [hlt, h]
    · have hgt : b.index < a.index := by omega
      simp [hlt, hgt, h]

theorem mapFind_congr (m : List (FaceId × List Int)) (a b : FaceId)
    (h : a.index = b.index) : mapFind m a = mapFind m b := by
  induction m with
  | nil => rfl
  | cons e rest ih =>
    obtain ⟨k, v⟩ := e
    have hk : keyEquiv a k = keyEquiv b k := by
      rw [keyEquiv_eq_decide, keyEquiv_eq_decide, h]
    simp [mapFind, hk, ih]

/-- C9: the edge/face discriminant is interpreted uniformly by all four
dispatch helpers: `GetOwner`/`GetGroup` call the edge accessor for type 0
and the face accessor for any nonzero type, and `AddDofs`/`GetDofs`
address the edge dictionary for type 0 and the face dictionary for any
nonzero type, so dofs added under a discriminant are retrieved under the
same discriminant and the other dictionary is untouched. -/
theorem type_discriminant_dispatch (m : ParNCMesh) (t : Int) (i : Nat)
    (id : FaceId) (dofs : List Int) (msg : NeighborDofMessage)
    (ht : t ≠ 0) :
    m.GetOwner 0 i = m.EdgeOwner i ∧
    m.GetOwner t i = m.FaceOwner i ∧
    m.GetGroup 0 i = m.EdgeGroup i ∧
    m.GetGroup t i = m.FaceGroup i ∧
    (msg.AddDofs 0 id dofs).GetDofs 0 id = some dofs ∧
    (msg.AddDofs t id dofs).GetDofs t id = some dofs ∧
    (msg.AddDofs 0 id dofs).face_dofs = msg.face_dofs ∧
    (msg.AddDofs t id dofs).edge_dofs = msg.edge_dofs := by
  refine ⟨by simp [ParNCMesh.GetOwner],
          by simp [ParNCMesh.GetOwner, ht],
          by simp [ParNCMesh.GetGroup],
          by simp [ParNCMesh.GetGroup, ht], ?_, ?_,
          by simp [NeighborDofMessage.AddDofs, NeighborDofMessage.AddEdgeDofs],
          by simp [NeighborDofMessage.AddDofs, ht,
                   NeighborDofMessage.AddFaceDofs]⟩
  · simp only [NeighborDofMessage.AddDofs, NeighborDofMessage.GetDofs,
      NeighborDofMessage.AddEdgeDofs, NeighborDofMessage.GetEdgeDofs,
      ne_eq, not_true_eq_false, if_neg, reduceIte]
    exact mapFind_mapInsert_self _ _ _ _ (keyEquiv_refl id)
  · simp only [NeighborDofMessage.AddDofs, NeighborDofMessage.GetDofs,
      NeighborDofMessage.AddFaceDofs, NeighborDofMessage.GetFaceDofs,
      ne_eq, ht, not_false_eq_true, if_pos, if_true]
    exact mapFind_mapInsert_self _ _ _ _ (keyEquiv_refl id)

/-- Witness for `type_discriminant_dispatch` at `t = 1` and concrete data. -/
theorem type_discriminant_dispatch_witness :
    (⟨[3], [4], [[0, 1]], [[2, 3]]⟩ : ParNCMesh).GetOwner 1 0 =
      ParNCMesh.FaceOwner ⟨[3], [4], [[0, 1]], [[2, 3]]⟩ 0 ∧
    (NeighborDofMessage.AddDofs ⟨[], []⟩ 1 ⟨7, 0, 0⟩ [2, 4]).GetDofs 1
      ⟨7, 0, 0⟩ = some [2, 4] :=
  ⟨(type_discriminant_dispatch ⟨[3], [4], [[0, 1]], [[2, 3]]⟩ 1 0 ⟨7, 0, 0⟩
      [2, 4] ⟨[], []⟩ (by decide)).2.1,
   (type_discriminant_dispatch ⟨[3], [4], [[0, 1]], [[2, 3]]⟩ 1 0 ⟨7, 0, 0⟩
      [2, 4] ⟨[], []⟩ (by decide)).2.2.2.2.2.1⟩

/-- C10: `FaceId` dictionary keys compare, and are equal as keys, by the
`index` field alone: ids with equal `index` address the same entry of a
`NeighborDofMessage` dictionary regardless of their other fields - an
`AddFaceDofs` under one and a `GetFaceDofs` under the other reach the same
stored dof list, and lookups with the two ids agree on every message. -/
theorem faceId_equal_index_same_entry (a b : FaceId) (dofs : List Int)
    (msg : NeighborDofMessage) (h : a.index = b.index) :
    (msg.AddFaceDofs a dofs).GetFaceDofs b = some dofs ∧
    (∀ m' : NeighborDofMessage, m'.GetFaceDofs a = m'.GetFaceDofs b) := by
  constructor
  · have hba : keyEquiv b a = true := by
      rw [keyEquiv_eq_decide]; simp [h]
    exact mapFind_mapInsert_self _ _ _ _ hba
  · intro m'
    exact mapFind_congr _ _ _ h

/-- Witness for `faceId_equal_index_same_entry`: ids `(3, 10, 1)` and
`(3, 99, 7)` share only the index field. -/
theorem faceId_equal_index_same_entry_witness :
    (NeighborDofMessage.AddFaceDofs ⟨[], []⟩ ⟨3, 10, 1⟩ [3, 7, 9]).GetFaceDofs
      ⟨3, 99, 7⟩ = some [3, 7, 9] :=
  (faceId_equal_index_same_entry ⟨3, 10, 1⟩ ⟨3, 99, 7⟩ [3, 7, 9] ⟨[], []⟩
    (by decide)).1

/-- C6 counterexample: the dictionary key comparison is the comparison of
the rank-local `index` field, so it is not independent of local numbering:
ids that differ only in the local index (as two ranks with different local
numbering would derive for one shared entity) are different keys, while
ids with equal local index but entirely different remaining fields are the
same key; the relative order of two entities can even flip between ranks. -/
theorem faceId_key_local_index_dependent :
    keyEquiv ⟨3, 2, 1⟩ ⟨5, 2, 1⟩ = false ∧
    keyEquiv ⟨3, 2, 1⟩ ⟨3, 9, 9⟩ = true ∧
    faceIdLess ⟨1, 2, 1⟩ ⟨2, 7, 7⟩ = true ∧
    faceIdLess ⟨7, 2, 1⟩ ⟨4, 7, 7⟩ = false := by
  decide

/-- C6 amended: the `EntityId` comparison the dictionaries use is exactly
the comparison of the rank-local `index` field - `operator<` is `<` on
`index` and key equality is equality of `index` - so two ranks derive the
same key for a shared entity precisely when their local indices coincide;
identification across ranks is delegated to the serialization step
(`EncodeEdgesFaces`/`DecodeEdgesFaces`), not to the key comparison. -/
theorem faceId_comparison_determined_by_index (a b : FaceId) :
    faceIdLess a b = decide (a.index < b.index) ∧
    keyEquiv a b = decide (a.index = b.index) ∧
    (keyEquiv a b = true ↔ a.index = b.index) := by
  refine ⟨rfl, keyEquiv_eq_decide a b, ?_⟩
  rw [keyEquiv_eq_decide]
  simp

theorem decodeEntries_encodeEntries (m : List (FaceId × List Int))
    (rest : List Int) :
    decodeEntries m.length (encodeEntries m ++ rest) = some (m, rest) := by
  induction m with
  | nil => rfl
  | cons e m ih =>
    obtain ⟨k, v⟩ := e
    simp only [List.length_cons, encodeEntries, encodeId, List.cons_append,
      List.append_eq, List.append_assoc, decodeEntries, Int.toNat_natCast]
    rw [dif_pos]
    · rw [List.drop_left v (encodeEntries m ++ rest), ih,
        List.take_left v (encodeEntries m ++ rest)]
    · refine ⟨Int.natCast_nonneg _, ?_⟩
      simp only [Int.toNat_natCast, List.length_append]
      omega

theorem decodeDict_encodeDict (m : List (FaceId × List Int))
    (rest : List Int) :
    decodeDict (encodeDict m ++ rest) = some (m, rest) := by
  simp only [encodeDict, decodeDict, List.cons_append]
  rw [if_pos (Int.natCast_nonneg _), Int.toNat_natCast]
  exact decodeEntries_encodeEntries m rest

theorem decode_encode_msg (msg : NeighborDofMessage) :
    NeighborDofMessage.decode (NeighborDofMessage.encode msg) = some msg := by
  obtain ⟨fd, ed⟩ := msg
  have h2 : decodeDict (encodeDict fd) = some (fd, []) := by
    have h3 := decodeDict_encodeDict fd []
    rwa [List.append_nil] at h3
  simp [NeighborDofMessage.encode, NeighborDofMessage.decode,
    decodeDict_encodeDict ed (encodeDict fd), h2]

/-- C5: for every `NeighborDofMessage` populated by any sequence of
`AddFaceDofs` / `AddEdgeDofs` calls, serializing (`Isend` payload) and
deserializing (`Recv`) reproduces the message exactly - same key set and,
per key, the identical ordered dof list, with no cross-contamination
between the edge and face dictionaries; in particular, after
`AddFaceDofs(f1, [3,7,9])` and `AddEdgeDofs(e1, [2,4])` the receiver's
`GetFaceDofs(f1)` yields `[3,7,9]`, `GetEdgeDofs(e1)` yields `[2,4]`, and
the cross lookups find nothing. -/
theorem neighborDofMessage_roundtrip (ops : List DofOp) :
    NeighborDofMessage.decode (NeighborDofMessage.encode (applyOps ops)) =
      some (applyOps ops) ∧
    (∀ msg : NeighborDofMessage,
      NeighborDofMessage.decode (NeighborDofMessage.encode msg) = some msg) ∧
    (let m0 := applyOps [DofOp.face ⟨1, 5, 0⟩ [3, 7, 9],
                         DofOp.edge ⟨2, 6, 1⟩ [2, 4]]
     NeighborDofMessage.decode (NeighborDofMessage.encode m0) = some m0 ∧
     m0.GetFaceDofs ⟨1, 5, 0⟩ = some [3, 7, 9] ∧
     m0.GetEdgeDofs ⟨2, 6, 1⟩ = some [2, 4] ∧
     m0.GetFaceDofs ⟨2, 6, 1⟩ = none ∧
     m0.GetEdgeDofs ⟨1, 5, 0⟩ = none) := by
  refine ⟨decode_encode_msg _, fun msg => decode_encode_msg msg,
          decode_encode_msg _, by decide, by decide, by decide, by decide⟩

theorem recvMatch_spec (src t : Int) (net : List MpiMsg) (m : MpiMsg)
    (rest : List MpiMsg) (h : recvMatch src t net = some (m, rest)) :
    m.source = src ∧ m.tag = t ∧ (m :: rest).Perm net ∧
    ∀ m' ∈ net, m'.tag ≠ t → m' ∈ rest := by
  induction net generalizing rest with
  | nil => exact absurd h (by simp [recvMatch])
  | cons x xs ih =>
    unfold recvMatch at h
    by_cases hx : x.source = src ∧ x.tag = t
    · rw [if_pos hx] at h
      obtain ⟨rfl, rfl⟩ := Prod.mk.injEq .. ▸ Option.some.injEq .. ▸ h
      refine ⟨hx.1, hx.2, List.Perm.refl _, ?_⟩
      intro m' hm' hne
      rcases List.mem_cons.mp hm' with hh | hh
      · exact absurd (hh ▸ hx.2) hne
      · exact hh
    · rw [if_neg hx] at h
      cases hrec : recvMatch src t xs with
      | none => rw [hrec] at h; exact absurd h (by simp)
      | some pr =>
        obtain ⟨m'', rest''⟩ := pr
        rw [hrec] at h
        obtain ⟨rfl, rfl⟩ := Prod.mk.injEq .. ▸ Option.some.injEq .. ▸ h
        obtain ⟨h1, h2, h3, h4⟩ := ih rest'' hrec
        refine ⟨h1, h2, ?_, ?_⟩
        · exact (List.Perm.swap x m'' rest'').trans (h3.cons x)
        · intro q hq hqt
          rcases List.mem_cons.mp hq with hh | hh
          · exact hh ▸ List.mem_cons_self x _
          · exact List.mem_cons_of_mem x (h4 q hh hqt)

/-- C7: the two phase message types use distinct channel tags (135 for
`NeighborDofMessage`, 312 for `NeighborRowMessage`), and both `Probe` and
the receive-matching step only ever select a pending message carrying the
probed/received tag, leaving every message of any other tag pending - so
receiving one phase's message type never consumes a message of the other
phase's type. -/
theorem distinct_tags_no_interference (t src : Int) (net rest : List MpiMsg)
    (m : MpiMsg) (hrecv : recvMatch src t net = some (m, rest)) :
    neighborDofTag = 135 ∧ neighborRowTag = 312 ∧
    neighborDofTag ≠ neighborRowTag ∧
    m.tag = t ∧ m.source = src ∧
    (∀ m' ∈ net, m'.tag ≠ t → m' ∈ rest) ∧
    (∀ m' : MpiMsg, probeTag t net = some m' → m'.tag = t) := by
  obtain ⟨h1, h2, _, h4⟩ := recvMatch_spec src t net m rest hrecv
  refine ⟨rfl, rfl, by decide, h2, h1, h4, ?_⟩
  intro m' hp
  have := List.find?_some hp
  exact of_decide_eq_true this

/-- Witness for `distinct_tags_no_interference`: with a tag-312 message in
front of a tag-135 message, receiving on tag 135 selects the tag-135
message and leaves the tag-312 message pending. -/
theorem distinct_tags_no_interference_witness :
    neighborDofTag ≠ neighborRowTag ∧
    (⟨⟨2, 135, [9]⟩, [⟨1, 312, [8]⟩]⟩ : MpiMsg × List MpiMsg).1.tag = 135 ∧
    (⟨1, 312, [8]⟩ : MpiMsg) ∈ [(⟨1, 312, [8]⟩ : MpiMsg)] :=
  have h := distinct_tags_no_interference 135 2
    [⟨1, 312, [8]⟩, ⟨2, 135, [9]⟩] [⟨1, 312, [8]⟩] ⟨2, 135, [9]⟩ (by decide)
  ⟨h.2.2.1, h.2.2.2.1, h.2.2.2.2.2.1 ⟨1, 312, [8]⟩ (by decide) (by decide)⟩

/-- C8: a `VarMessage::Recv(rank, size, comm)` paired with a probe that
reported `(rank, size)` - i.e. the pending matching message's payload has
exactly `size` bytes - leaves the message buffer `data` equal to the
received payload, of length exactly `size`, discarding whatever the buffer
held before. -/
theorem varMessage_recv_exact_payload (Tag src : Int) (size : Nat)
    (data : List Int) (net rest : List MpiMsg) (m : MpiMsg)
    (hfind : recvMatch src Tag net = some (m, rest))
    (hsize : m.payload.length = size) :
    VarMessage.Recv Tag data src size net = some (m.payload, rest) ∧
    m.payload.length = size := by
  refine ⟨?_, hsize⟩
  have htake : m.payload.take size = m.payload := by
    rw [← hsize]; exact List.take_length m.payload
  have hbuf : recvInto (stringResize data size) size m = m.payload := by
    simp only [recvInto, stringResize, htake]
    have hlen2 : (data.take size ++ List.replicate (size - data.length) 0).drop
        m.payload.length = ([] : List Int) := by
      apply List.drop_eq_nil_of_le
      rw [hsize]
      simp only [List.length_append, List.length_take, List.length_replicate]
      omega
    rw [hlen2, List.append_nil]
  have hstep : VarMessage.Recv Tag data src size net =
      some (recvInto (stringResize data size) size m, rest) := by
    unfold VarMessage.Recv
    rw [hfind]
  rw [hstep, hbuf]

/-- Witness for `varMessage_recv_exact_payload`: receive a 3-byte message
from rank 1 into a buffer that previously held other bytes. -/
theorem varMessage_recv_exact_payload_witness :
    VarMessage.Recv 135 [5, 5] 1 3 [⟨1, 135, [7, 8, 9]⟩] =
      some ([7, 8, 9], []) :=
  (varMessage_recv_exact_payload 135 1 3 [5, 5] [⟨1, 135, [7, 8, 9]⟩] []
    ⟨1, 135, [7, 8, 9]⟩ (by decide) (by decide)).1

theorem nodesFrom_node (p : ElemPath) (cs : ElemList) :
    nodesFrom p (Elem.node cs) = p :: nodesFromList p 0 cs := rfl

theorem nodesFromList_nil (p : ElemPath) (i : Nat) :
    nodesFromList p i ElemList.nil = [] := rfl

theorem nodesFromList_cons (p : ElemPath) (i : Nat) (c : Elem) (cs : ElemList) :
    nodesFromList p i (ElemList.cons c cs) =
      nodesFrom (p ++ [i]) c ++ nodesFromList p (i + 1) cs := rfl

theorem hasHit_node (S : List ElemPath) (p : ElemPath) (cs : ElemList) :
    hasHit S p (Elem.node cs) = (decide (p ∈ S) || hasHitList S p 0 cs) := rfl

theorem hasHitList_nil (S : List ElemPath) (p : ElemPath) (i : Nat) :
    hasHitList S p i ElemList.nil = false := rfl

theorem hasHitList_cons (S : List ElemPath) (p : ElemPath) (i : Nat)
    (c : Elem) (cs : ElemList) :
    hasHitList S p i (ElemList.cons c cs) =
      (hasHit S (p ++ [i]) c || hasHitList S p (i + 1) cs) := rfl

theorem encodeTree_node (S : List ElemPath) (p : ElemPath) (cs : ElemList) :
    encodeTree S p (Elem.node cs) =
      (if p ∈ S then [1]
       else if hasHitList S p 0 cs then 2 :: encodeList S p 0 cs
       else [0]) := rfl

theorem encodeList_nil (S : List ElemPath) (p : ElemPath) (i : Nat) :
    encodeList S p i ElemList.nil = [] := rfl

theorem encodeList_cons (S : List ElemPath) (p : ElemPath) (i : Nat)
    (c : Elem) (cs : ElemList) :
    encodeList S p i (ElemList.cons c cs) =
      encodeTree S (p ++ [i]) c ++ encodeList S p (i + 1) cs := rfl

theorem decodeTree_cons (p : ElemPath) (cs : ElemList) (b : Nat)
    (bs : List Nat) :
    decodeTree p (Elem.node cs) (b :: bs) =
      (if b = 1 then some ([p], bs)
       else if b = 2 then decodeList p 0 cs bs
       else if b = 0 then some ([], bs)
       else none) := rfl

theorem decodeList_nil (p : ElemPath) (i : Nat) (bs : List Nat) :
    decodeList p i ElemList.nil bs = some ([], bs) := rfl

theorem decodeList_cons (p : ElemPath) (i : Nat) (c : Elem) (cs : ElemList)
    (bs : List Nat) :
    decodeList p i (ElemList.cons c cs) bs =
      (match decodeTree (p ++ [i]) c bs with
       | none => none
       | some (ps, bs₁) =>
         match decodeList p (i + 1) cs bs₁ with
         | none => none
         | some (qs, bs₂) => some (ps ++ qs, bs₂)) := rfl

theorem pickTree_node (S : List ElemPath) (p : ElemPath) (cs : ElemList) :
    pickTree S p (Elem.node cs) =
      (if p ∈ S then [p]
       else if hasHitList S p 0 cs then pickList S p 0 cs
       else []) := rfl

theorem pickList_nil (S : List ElemPath) (p : ElemPath) (i : Nat) :
    pickList S p i ElemList.nil = [] := rfl

theorem pickList_cons (S : List ElemPath) (p : ElemPath) (i : Nat)
    (c : Elem) (cs : ElemList) :
    pickList S p i (ElemList.cons c cs) =
      pickTree S (p ++ [i]) c ++ pickList S p (i + 1) cs := rfl

theorem rt_node (cs : ElemList) (ih : RTlist cs) : RTtree (Elem.node cs) := by
  intro S p rest
  rw [encodeTree_node, pickTree_node]
  by_cases hp : p ∈ S
  · rw [if_pos hp, if_pos hp, List.singleton_append, decodeTree_cons]
    norm_num
  · by_cases hh : hasHitList S p 0 cs = true
    · rw [if_neg hp, if_neg hp, if_pos hh, if_pos hh, List.cons_append,
        decodeTree_cons]
      norm_num
      exact ih S p 0 rest
    · rw [if_neg hp, if_neg hp, if_neg hh, if_neg hh,
        List.singleton_append, decodeTree_cons]
      norm_num

theorem rt_nil : RTlist ElemList.nil := by
  intro S p i rest
  rw [encodeList_nil, pickList_nil, List.nil_append, decodeList_nil]

theorem rt_cons (c : Elem) (cs : ElemList) (iht : RTtree c)
    (ihl : RTlist cs) : RTlist (ElemList.cons c cs) := by
  intro S p i rest
  simp only [encodeList_cons, pickList_cons, List.append_assoc, decodeList_cons,
    iht S (p ++ [i]) (encodeList S p (i + 1) cs ++ rest),
    ihl S p (i + 1) rest]

theorem rt_tree (t : Elem) : RTtree t :=
  @Elem.rec RTtree RTlist rt_node rt_nil rt_cons t

theorem rt_list (cs : ElemList) : RTlist cs :=
  @ElemList.rec RTtree RTlist rt_node rt_nil rt_cons cs

theorem properAnc_iff (p q : ElemPath) :
    properAnc p q = true ↔ ∃ s, s ≠ [] ∧ q = p ++ s := by
  induction p generalizing q with
  | nil =>
    cases q with
    | nil =>
      simp only [properAnc, Bool.false_eq_true, false_iff]
      rintro ⟨s, hs, hq⟩
      exact hs hq.symm
    | cons b bs =>
      simp only [properAnc, true_iff, List.nil_append]
      exact ⟨b :: bs, by simp, rfl⟩
  | cons a as ih =>
    cases q with
    | nil =>
      simp only [properAnc, Bool.false_eq_true, false_iff]
      rintro ⟨s, hs, hq⟩
      cases hq
    | cons b bs =>
      simp only [properAnc, Bool.and_eq_true, decide_eq_true_eq, ih,
        List.cons_append]
      constructor
      · rintro ⟨rfl, s, hs, rfl⟩
        exact ⟨s, hs, rfl⟩
      · rintro ⟨s, hs, hq⟩
        injection hq with h1 h2
        exact ⟨h1.symm, s, hs, h2⟩

theorem properAnc_append_cons (p : ElemPath) (x : Nat) (s : List Nat) :
    properAnc p (p ++ x :: s) = true :=
  (properAnc_iff _ _).mpr ⟨x :: s, by simp, rfl⟩

theorem properAnc_of_append (p : ElemPath) (i : Nat) (q : ElemPath)
    (h : properAnc (p ++ [i]) q = true ∨ p ++ [i] = q) :
    properAnc p q = true := by
  rcases h with h | h
  · obtain ⟨s, hs, rfl⟩ := (properAnc_iff _ _).mp h
    have he : (p ++ [i]) ++ s = p ++ (i :: s) := by simp
    rw [he]
    exact properAnc_append_cons p i s
  · rw [← h]
    exact properAnc_append_cons p i []

theorem ns_node (cs : ElemList) (ih : NSlist cs) : NStree (Elem.node cs) := by
  intro p q hq
  rw [nodesFrom_node] at hq
  rcases List.mem_cons.mp hq with h | h
  · exact Or.inl h.symm
  · exact Or.inr (ih p 0 q h)

theorem ns_nil : NSlist ElemList.nil := by
  intro p i q hq
  rw [nodesFromList_nil] at hq
  cases hq

theorem ns_cons (c : Elem) (cs : ElemList) (iht : NStree c) (ihl : NSlist cs) :
    NSlist (ElemList.cons c cs) := by
  intro p i q hq
  rw [nodesFromList_cons] at hq
  rcases List.mem_append.mp hq with h | h
  · rcases iht (p ++ [i]) q h with h1 | h1
    · exact properAnc_of_append p i q (Or.inr h1)
    · exact properAnc_of_append p i q (Or.inl h1)
  · exact ihl p (i + 1) q h

theorem ns_list (cs : ElemList) : NSlist cs :=
  @ElemList.rec NStree NSlist ns_node ns_nil ns_cons cs

theorem hh_node (cs : ElemList) (ih : HHlist cs) : HHtree (Elem.node cs) := by
  intro S p q hqS hq
  rw [nodesFrom_node] at hq
  rw [hasHit_node]
  rcases List.mem_cons.mp hq with h | h
  · have hp : p ∈ S := h ▸ hqS
    simp [hp]
  · simp [ih S p 0 q hqS h]

theorem hh_nil : HHlist ElemList.nil := by
  intro S p i q _ hq
  rw [nodesFromList_nil] at hq
  cases hq

theorem hh_cons (c : Elem) (cs : ElemList) (iht : HHtree c) (ihl : HHlist cs) :
    HHlist (ElemList.cons c cs) := by
  intro S p i q hqS hq
  rw [nodesFromList_cons] at hq
  rw [hasHitList_cons]
  rcases List.mem_append.mp hq with h | h
  · simp [iht S (p ++ [i]) q hqS h]
  · simp [ihl S p (i + 1) q hqS h]

theorem hh_list (cs : ElemList) : HHlist cs :=
  @ElemList.rec HHtree HHlist hh_node hh_nil hh_cons cs

theorem ps_node (cs : ElemList) (ih : PSlist cs) : PStree (Elem.node cs) := by
  intro S p q hq
  rw [pickTree_node] at hq
  by_cases hp : p ∈ S
  · rw [if_pos hp] at hq
    have h := List.mem_singleton.mp hq
    subst h
    exact hp
  · rw [if_neg hp] at hq
    by_cases hh : hasHitList S p 0 cs = true
    · rw [if_pos hh] at hq
      exact ih S p 0 q hq
    · rw [if_neg hh] at hq
      cases hq

theorem ps_nil : PSlist ElemList.nil := by
  intro S p i q hq
  rw [pickList_nil] at hq
  cases hq

theorem ps_cons (c : Elem) (cs : ElemList) (iht : PStree c) (ihl : PSlist cs) :
    PSlist (ElemList.cons c cs) := by
  intro S p i q hq
  rw [pickList_cons] at hq
  rcases List.mem_append.mp hq with h | h
  · exact iht S (p ++ [i]) q h
  · exact ihl S p (i + 1) q h

theorem ps_list (cs : ElemList) : PSlist cs :=
  @ElemList.rec PStree PSlist ps_node ps_nil ps_cons cs

theorem pc_node (cs : ElemList) (ih : PClist cs) : PCtree (Elem.node cs) := by
  intro S p q hqS hanti hq
  rw [nodesFrom_node] at hq
  rw [pickTree_node]
  rcases List.mem_cons.mp hq with h | h
  · subst h
    rw [if_pos hqS]
    exact List.mem_singleton.mpr rfl
  · have hpS : p ∉ S := by
      intro hpS
      have hpa : properAnc p q = true := ns_list cs p 0 q h
      have hfa := hanti p hpS
      rw [hfa] at hpa
      cases hpa
    rw [if_neg hpS]
    have hh : hasHitList S p 0 cs = true := hh_list cs S p 0 q hqS h
    rw [if_pos hh]
    exact ih S p 0 q hqS hanti h

theorem pc_nil : PClist ElemList.nil := by
  intro S p i q _ _ hq
  rw [nodesFromList_nil] at hq
  cases hq

theorem pc_cons (c : Elem) (cs : ElemList) (iht : PCtree c) (ihl : PClist cs) :
    PClist (ElemList.cons c cs) := by
  intro S p i q hqS hanti hq
  rw [nodesFromList_cons] at hq
  rw [pickList_cons]
  rcases List.mem_append.mp hq with h | h
  · exact List.mem_append.mpr (Or.inl (iht S (p ++ [i]) q hqS hanti h))
  · exact List.mem_append.mpr (Or.inr (ihl S p (i + 1) q hqS hanti h))

theorem pc_list (cs : ElemList) : PClist cs :=
  @ElemList.rec PCtree PClist pc_node pc_nil pc_cons cs

/-- C4 (amended): for every subset `S` of tree-node paths reachable from
the fixed root array in which no member is a proper ancestor of another
member - which covers `S` empty, `S` all leaves, and `S` an interior node
with its descendants excluded - decoding the encoding of `S` against the
same tree consumes the stream exactly and yields precisely `S`. -/
theorem elementSet_roundtrip_antichain (roots : ElemList) (S : List ElemPath)
    (hreach : ∀ q ∈ S, q ∈ rootsNodes roots)
    (hanti : ∀ q ∈ S, ∀ r ∈ S, properAnc q r = false) :
    decodeRoots roots (encodeRoots S roots) =
      some (pickList S [] 0 roots, []) ∧
    ∀ q, q ∈ pickList S [] 0 roots ↔ q ∈ S := by
  constructor
  · have h := rt_list roots S [] 0 []
    rw [List.append_nil] at h
    exact h
  · intro q
    constructor
    · exact fun hq => ps_list roots S [] 0 q hq
    · intro hqS
      exact pc_list roots S [] 0 q hqS
        (fun r hr => hanti r hr q hqS) (hreach q hqS)

/-- Witness for `elementSet_roundtrip_antichain`: the set of both leaves of
a refined root decodes back to itself. -/
theorem elementSet_roundtrip_antichain_witness :
    decodeRoots elemTwoLeaves
        (encodeRoots [[0, 0], [0, 1]] elemTwoLeaves) =
      some (pickList [[0, 0], [0, 1]] [] 0 elemTwoLeaves, []) ∧
    ∀ q, q ∈ pickList [[0, 0], [0, 1]] [] 0 elemTwoLeaves ↔
      q ∈ ([[0, 0], [0, 1]] : List ElemPath) :=
  elementSet_roundtrip_antichain elemTwoLeaves [[0, 0], [0, 1]]
    (by decide) (by decide)

/-- C4 counterexample: the round trip fails for a reachable subset whose
members are nested - with one root whose single child is also in `S`, the
encoder stops descending at the root (control byte `1`), so decoding
returns only the root path `[0]` and loses the member `[0, 0]`; the claim
quantifies over every reachable subset, which is refuted here. -/
theorem elementSet_nested_subset_fails :
    (∀ q ∈ ([[0], [0, 0]] : List ElemPath), q ∈ rootsNodes elemChain) ∧
    encodeRoots [[0], [0, 0]] elemChain = [1] ∧
    decodeRoots elemChain (encodeRoots [[0], [0, 0]] elemChain) =
      some ([[0]], []) ∧
    ([0, 0] : ElemPath) ∈ ([[0], [0, 0]] : List ElemPath) ∧
    ([0, 0] : ElemPath) ∉ ([[0]] : List ElemPath) := by
  exact ⟨by decide, by decide, by decide, by decide, by decide⟩
